import Mathlib

/-!
Verification of the mushroom-segmentation pipeline
(`src/mushroom_segmentation/core/segmentation.py` and
`src/mushroom_segmentation/config/settings.py`).

Images are shallowly embedded as lists of rows of 8-bit intensities
(`ℕ`), color images as rows of BGR triples, and distance maps as rows of
rationals.  Pure repository functions become Lean functions; the
division that Python's `/` performs (raising `ZeroDivisionError` on a
zero denominator) is embedded with `Except`.

The external OpenCV / skimage primitives the repository calls
(`cv2.threshold`, `cv2.morphologyEx`, `cv2.dilate`,
`cv2.distanceTransform`, `cv2.GaussianBlur`, `cv2.cvtColor`,
`cv2.createCLAHE`, `skimage.feature.corner_peaks`) are not code of this
repository; they are modelled from the specification's descriptions of
the corresponding pipeline stages (spec sections 4.1 to 4.4), as noted
on each definition.
-/

namespace MushroomSeg

section

/- The Batteries rational-number operations are `@[irreducible]`, which the
kernel ignores but which blocks `decide`-style evaluation in the
elaborator; making them semireducible lets concrete pipeline runs be
checked by evaluation. -/
attribute [local semireducible] Rat.mul Rat.add Rat.sub Rat.inv

/-- A grayscale image: rows of 8-bit intensity samples. -/
abbrev Gray := List (List ℕ)

/-- A BGR color image: rows of (blue, green, red) samples. -/
abbrev ColorImage := List (List (ℕ × ℕ × ℕ))

/-- A distance map: rows of rational distance values. -/
abbrev QGrid := List (List ℚ)

/-- A detected circle `(x, y, radius1, radius2)` as returned by `segment`. -/
abbrev Circle := ℕ × ℕ × ℤ × ℤ

/-- The configuration value object of `config/settings.py` (the fields the
core pipeline reads; the visualization-only color fields are omitted). -/
structure Settings where
  back_threshold : ℤ
  threshold : ℤ
  min_diameter : ℤ
  peaks_rel_threshold : ℚ
  gaussian_kernel_size : ℤ
  clahe_clip_limit : ℚ
  clahe_tile_size : ℤ
  morphology_kernel_size : ℤ
deriving DecidableEq, Repr

/-- The declared ranges of the configuration fields, from the pydantic
`Field` constraints in `settings.py` (`gaussian_kernel_size` carries no
range constraint there). -/
def Settings.Valid (s : Settings) : Prop :=
  0 ≤ s.back_threshold ∧ s.back_threshold ≤ 255 ∧
  0 ≤ s.threshold ∧ s.threshold ≤ 255 ∧
  1 ≤ s.min_diameter ∧
  0 ≤ s.peaks_rel_threshold ∧ s.peaks_rel_threshold ≤ 1 ∧
  0 ≤ s.clahe_clip_limit ∧ 1 ≤ s.clahe_tile_size ∧
  1 ≤ s.morphology_kernel_size

instance (s : Settings) : Decidable s.Valid := by
  unfold Settings.Valid; infer_instance

/-- The `validate_odd_kernel_size` field validator of `settings.py`:
even kernel sizes are bumped to the next odd value. -/
def validateOddKernelSize (v : ℤ) : ℤ :=
  if v % 2 = 0 then v + 1 else v

/-- Construction of a `Settings` value: pydantic first checks the declared
`Field` ranges and then runs the (mode `after`) kernel-size validator on the
two kernel-size fields. -/
def mkSettings (back thr mind : ℤ) (rel : ℚ) (gk : ℤ) (clip : ℚ)
    (tile morph : ℤ) : Option Settings :=
  if 0 ≤ back ∧ back ≤ 255 ∧ 0 ≤ thr ∧ thr ≤ 255 ∧ 1 ≤ mind ∧
      0 ≤ rel ∧ rel ≤ 1 ∧ 0 ≤ clip ∧ 1 ≤ tile ∧ 1 ≤ morph then
    some { back_threshold := back, threshold := thr, min_diameter := mind,
           peaks_rel_threshold := rel,
           gaussian_kernel_size := validateOddKernelSize gk,
           clahe_clip_limit := clip, clahe_tile_size := tile,
           morphology_kernel_size := validateOddKernelSize morph }
  else none

/-! ### Grid primitives -/

/-- Pixel access with a zero default outside the grid. -/
def gpx (g : Gray) (i j : ℕ) : ℕ :=
  ((g[i]?.getD [])[j]?).getD 0

/-- Color pixel access with a black default outside the grid. -/
def cpx (g : ColorImage) (i j : ℕ) : ℕ × ℕ × ℕ :=
  ((g[i]?.getD [])[j]?).getD (0, 0, 0)

/-- Distance-map access with a zero default outside the grid. -/
def qget (g : QGrid) (i j : ℕ) : ℚ :=
  ((g[i]?.getD [])[j]?).getD 0

/-- Width of a grid (length of its first row; arrays are rectangular). -/
def gwidth (g : List (List α)) : ℕ :=
  (g.head?.getD []).length

/-- Build an `h × w` grid from a pixel function. -/
def gridOf (h w : ℕ) (f : ℕ → ℕ → α) : List (List α) :=
  (List.range h).map fun i => (List.range w).map fun j => f i j

/-- Row-major list of the coordinates of a grid. -/
def coordsOf (g : List (List α)) : List (ℕ × ℕ) :=
  (List.range g.length).flatMap fun i =>
    (List.range (gwidth g)).map fun j => (i, j)

/-! ### Spec-modelled external image primitives -/

/-- Modelled from the spec: `cv2.threshold(..., THRESH_BINARY)` used by the
Background Remover and the Distance Mapper — "binarize via a fixed global
threshold (pixel > threshold → 255, else 0)" (spec 4.2). -/
def thresholdBinary (thr : ℤ) (g : Gray) : Gray :=
  gridOf g.length (gwidth g) fun i j =>
    if thr < (gpx g i j : ℤ) then 255 else 0

/-- Window offsets of a square structuring element of side `m` with the
anchor at its center (`m / 2`), as OpenCV places it. -/
def kernelOffsets (m : ℤ) : List ℤ :=
  (List.range m.toNat).map fun j => (j : ℤ) - m.toNat / 2

/-- The in-bounds pixel values inside the structuring-element window
centered at `(i, j)`; pixels outside the image are ignored, matching the
border convention of OpenCV's morphological operations. -/
def windowVals (m : ℤ) (g : Gray) (i j : ℕ) : List ℕ :=
  (kernelOffsets m).flatMap fun dy =>
    (kernelOffsets m).filterMap fun dx =>
      let y : ℤ := (i : ℤ) + dy
      let x : ℤ := (j : ℤ) + dx
      if 0 ≤ y ∧ y < g.length ∧ 0 ≤ x ∧ x < gwidth g then
        some (gpx g y.toNat x.toNat)
      else none

/-- Modelled from the spec: morphological dilation with an all-ones square
structuring element of side `m` (spec 4.2, glossary): each output pixel is
the maximum over the window. -/
def dilate (m : ℤ) (g : Gray) : Gray :=
  gridOf g.length (gwidth g) fun i j => (windowVals m g i j).foldr max 0

/-- Modelled from the spec: morphological erosion with an all-ones square
structuring element of side `m` (spec 4.2, glossary): each output pixel is
the minimum over the window. -/
def erode (m : ℤ) (g : Gray) : Gray :=
  gridOf g.length (gwidth g) fun i j => ((windowVals m g i j).min?).getD 0

/-- Modelled from the spec: the chamfer weight between two pixels, the
"3×3-neighborhood-based approximation" of Euclidean distance that spec 4.3
allows (the weights 0.955 and 1.3693 are those of
`cv2.distanceTransform(..., DIST_L2, 3)`). -/
def chamferW (p q : ℕ × ℕ) : ℚ :=
  let dy : ℕ := ((p.1 : ℤ) - q.1).natAbs
  let dx : ℕ := ((p.2 : ℤ) - q.2).natAbs
  let mx : ℕ := if dy ≤ dx then dx else dy
  let mn : ℕ := if dy ≤ dx then dy else dx
  (955 / 1000 : ℚ) * ((mx : ℚ) - (mn : ℚ)) + (13693 / 10000 : ℚ) * (mn : ℚ)

/-- Modelled from the spec: the distance transform of a binary image
(spec 4.3) — every zero (background) pixel maps to 0, and every nonzero
(foreground) pixel maps to the least chamfer distance to a zero pixel.
An image with no zero pixel at all gets a large sentinel value, matching
the huge initialization value OpenCV leaves in that case. -/
def chamferDT (g : Gray) : QGrid :=
  let zeros := (coordsOf g).filter fun p => gpx g p.1 p.2 = 0
  gridOf g.length (gwidth g) fun i j =>
    if gpx g i j = 0 then 0
    else ((zeros.map fun q => chamferW (i, j) q).min?).getD 1000000

/-- Modelled from the spec: local contrast normalization, i.e. adaptive
histogram equalization (`cv2.createCLAHE(...).apply`, spec 4.1).  The spec
gives no formula, so this uses the classical histogram-equalization lookup
`lut v = ((cdf v - cdf vmin) * 255) / (n - cdf vmin)` (natural-number
floor division; a constant image maps to 0 by the `0 / 0 = 0` convention),
ignoring the tiling and the clip limit, which the spec does not specify. -/
def clahe (g : Gray) : Gray :=
  let pixels := g.flatten
  let n := pixels.length
  let cdf : ℕ → ℕ := fun v => (pixels.filter fun u => u ≤ v).length
  let vmin := (pixels.min?).getD 0
  gridOf g.length (gwidth g) fun i j =>
    ((cdf (gpx g i j) - cdf vmin) * 255) / (n - cdf vmin)

/-- Modelled from the spec: "standard luma-weighted conversion" to
grayscale (`cv2.cvtColor(..., COLOR_BGR2GRAY)`, spec 4.1):
`0.114 B + 0.587 G + 0.299 R`, rounded to the nearest integer. -/
def cvtGray (img : ColorImage) : Gray :=
  gridOf img.length (gwidth img) fun i j =>
    let p := cpx img i j
    (114 * p.1 + 587 * p.2.1 + 299 * p.2.2 + 500) / 1000

/-- Modelled from the spec: separable Gaussian blur with a square kernel of
side `k` and automatically derived variance (`cv2.GaussianBlur`, spec 4.1),
using binomial-coefficient weights (the discrete Gaussian; for sizes 1, 3
and 5 these are exactly OpenCV's fixed small-kernel coefficients), rounding
to nearest, and replicated borders.  Applied per BGR channel. -/
def gaussianBlur (k : ℤ) (img : ColorImage) : ColorImage :=
  let n := k.toNat
  if n ≤ 1 then img
  else
    let h := (n - 1) / 2
    let wgt : ℤ → ℕ := fun d => Nat.choose (n - 1) (d + h).toNat
    let denom := 4 ^ (n - 1)
    let clampi : ℤ → ℕ → ℕ := fun z len => (min (max z 0) ((len : ℤ) - 1)).toNat
    let chan : (ℕ × ℕ × ℕ → ℕ) → ℕ → ℕ → ℕ := fun c i j =>
      let s := ((kernelOffsets k).map fun dy =>
        ((kernelOffsets k).map fun dx =>
          wgt dy * wgt dx *
            c (cpx img (clampi ((i : ℤ) + dy) img.length)
                       (clampi ((j : ℤ) + dx) (gwidth img)))).sum).sum
      (s + denom / 2) / denom
    gridOf img.length (gwidth img) fun i j =>
      (chan (fun p => p.1) i j, chan (fun p => p.2.1) i j,
       chan (fun p => p.2.2) i j)

/-! ### The repository's pipeline stages (`segmentation.py`) -/

/-- `MushroomSegmenter._remove_background`: threshold at `back_threshold`,
morphological opening (`cv2.morphologyEx(..., MORPH_OPEN, iterations=n)`
erodes `n` times and then dilates `n` times) with
`iterations = max(1, min_diameter // 3)`, then dilation with 5 iterations. -/
def removeBackground (s : Settings) (g : Gray) : Gray :=
  let binary := thresholdBinary s.back_threshold g
  let m := s.morphology_kernel_size
  let iters := (max 1 (Int.fdiv s.min_diameter 3)).toNat
  let opened := (dilate m)^[iters] ((erode m)^[iters] binary)
  (dilate m)^[5] opened

/-- `cv2.bitwise_and(image, image, mask=mask)`: the image where the mask is
nonzero, 0 elsewhere. -/
def applyMask (g mask : Gray) : Gray :=
  gridOf g.length (gwidth g) fun i j =>
    if gpx mask i j ≠ 0 then gpx g i j else 0

/-- `len(np.unique(image))`: the number of distinct intensity values. -/
def numDistinct (g : Gray) : ℕ :=
  g.flatten.dedup.length

/-- `MushroomSegmenter._compute_distance_transform`: binarize at
`threshold` when the image has more than two distinct intensity levels
(otherwise it is treated as already binary), then take the distance
transform. -/
def computeDistanceTransform (s : Settings) (g : Gray) : QGrid :=
  let binary := if 2 < numDistinct g then thresholdBinary s.threshold g else g
  chamferDT binary

/-- Maximum value of a distance map (`distance_map.max()`). -/
def maxVal (g : QGrid) : ℚ :=
  g.flatten.foldr max 0

/-- Squared Euclidean distance between two pixel coordinates. -/
def sqDist (p q : ℕ × ℕ) : ℤ :=
  ((p.1 : ℤ) - q.1) ^ 2 + ((p.2 : ℤ) - q.2) ^ 2

/-- Modelled from the spec: the candidate peaks of
`skimage.feature.corner_peaks` — the pixels, in row-major order, whose
value exceeds `peaks_rel_threshold × max(distance_map)` (spec 4.4; the
strict comparison makes an all-zero map yield no candidates). -/
def candidatePeaks (s : Settings) (g : QGrid) : List (ℕ × ℕ) :=
  (coordsOf g).filter fun p =>
    s.peaks_rel_threshold * maxVal g < qget g p.1 p.2

/-- The highest-valued coordinate of a list, the earliest one on ties. -/
def pickBest (g : QGrid) : List (ℕ × ℕ) → Option (ℕ × ℕ)
  | [] => none
  | p :: rest =>
    match pickBest g rest with
    | none => some p
    | some b => if qget g p.1 p.2 < qget g b.1 b.2 then some b else some p

/-- Modelled from the spec: greedy non-maximum suppression (spec 4.4):
repeatedly keep the highest-valued remaining candidate (earliest in
row-major order on ties) and suppress every candidate closer than `d` to
it.  The fuel argument (instantiated with the list length) only serves
termination. -/
def nmsLoop (g : QGrid) (d : ℤ) : ℕ → List (ℕ × ℕ) → List (ℕ × ℕ)
  | 0, _ => []
  | fuel + 1, cands =>
    match pickBest g cands with
    | none => []
    | some best =>
        best :: nmsLoop g d fuel
          (cands.filter fun q => q ≠ best ∧ d ^ 2 ≤ sqDist best q)

/-- `MushroomSegmenter._find_local_maxima`: `corner_peaks(distance_map,
min_distance=min_diameter, threshold_rel=peaks_rel_threshold)`, modelled
from spec 4.4 as relative thresholding followed by non-maximum
suppression at separation `min_diameter`. -/
def findLocalMaxima (s : Settings) (g : QGrid) : List (ℕ × ℕ) :=
  nmsLoop g s.min_diameter (candidatePeaks s g).length (candidatePeaks s g)

/-- The compensation coefficient of `_extract_circles`:
`1 + (threshold - back_threshold) / (255 - back_threshold)`. -/
def compCoeff (s : Settings) : ℚ :=
  1 + ((s.threshold : ℚ) - (s.back_threshold : ℚ)) /
    (255 - (s.back_threshold : ℚ))

/-- Python's `int(...)` on a (rational-modelled) float: truncation toward
zero. -/
def pyInt (q : ℚ) : ℤ :=
  if 0 ≤ q then ⌊q⌋ else -⌊-q⌋

/-- The loop body of `_extract_circles`: for each peak `(y, x)`, radii are
read off both distance maps and scaled by the (already computed)
coefficient, and the circle `(x, y, radius1, radius2)` is appended when
`radius1 >= min_diameter // 2` (Python `//` is floor division). -/
def extractLoop (coeff : ℚ) (mind : ℤ) (rawMap eqMap : QGrid) :
    List (ℕ × ℕ) → List Circle
  | [] => []
  | (y, x) :: rest =>
    let radius1 := pyInt (qget rawMap y x * coeff)
    let radius2 := pyInt (qget eqMap y x * coeff)
    if Int.fdiv mind 2 ≤ radius1 then
      (x, y, radius1, radius2) :: extractLoop coeff mind rawMap eqMap rest
    else extractLoop coeff mind rawMap eqMap rest

/-- `MushroomSegmenter._extract_circles`: the compensation coefficient is
computed once, before the loop over the peaks; its division raises
`ZeroDivisionError` when `255 - back_threshold = 0`. -/
def extractCircles (s : Settings) (peaks : List (ℕ × ℕ))
    (rawMap eqMap : QGrid) : Except String (List Circle) :=
  if (255 : ℤ) - s.back_threshold = 0 then
    Except.error "ZeroDivisionError"
  else
    Except.ok (extractLoop (compCoeff s) s.min_diameter rawMap eqMap peaks)

/-- `MushroomSegmenter._preprocess_image`: Gaussian blur, grayscale
conversion, then contrast normalization. -/
def preprocessImage (s : Settings) (image : ColorImage) : Gray :=
  clahe (cvtGray (gaussianBlur s.gaussian_kernel_size image))

/-- `MushroomSegmenter.segment`: the full pipeline. -/
def segment (s : Settings) (image : ColorImage) :
    Except String (List Circle) :=
  let preprocessed := preprocessImage s image
  let foregroundMask := removeBackground s preprocessed
  let maskedImage := applyMask preprocessed foregroundMask
  let distMap := computeDistanceTransform s maskedImage
  let equalizedImage := clahe maskedImage
  let equalizedDistMap := computeDistanceTransform s equalizedImage
  let peaks := findLocalMaxima s equalizedDistMap
  extractCircles s peaks distMap equalizedDistMap


/-! ### Concrete inputs used by witnesses and counterexamples -/

/-- A color image whose three channels all carry the given gray values. -/
def mkGrayColor (rows : List (List ℕ)) : ColorImage :=
  rows.map fun r => r.map fun v => (v, v, v)

/-- A row of width 11 holding value 10 except at the listed columns. -/
def cexRow (cols : List (ℕ × ℕ)) : List ℕ :=
  (List.range 11).map fun j =>
    ((cols.find? fun c => c.1 = j).map Prod.snd).getD 10

/-- A 5 × 11 image: a 3 × 3 bright blob (value 30), a 2 × 3 block of
value 20 inside the dilated mask ring, and one value-25 pixel outside
the ring. -/
def cexImage : ColorImage := mkGrayColor [
  cexRow [],
  cexRow [(2, 30), (3, 30), (4, 30), (6, 20), (7, 20), (8, 20)],
  cexRow [(2, 30), (3, 30), (4, 30), (6, 20), (7, 20), (8, 20), (10, 25)],
  cexRow [(2, 30), (3, 30), (4, 30)],
  cexRow []]

/-- An in-range configuration with `threshold < back_threshold`, making the
compensation coefficient negative (`1 + (100 - 254) / (255 - 254) = -153`). -/
def cexSettings : Settings :=
  { back_threshold := 254, threshold := 100, min_diameter := 1,
    peaks_rel_threshold := 1 / 10, gaussian_kernel_size := 1,
    clahe_clip_limit := 2, clahe_tile_size := 8,
    morphology_kernel_size := 3 }

/-- An in-range configuration with `back_threshold ≤ threshold`. -/
def witSettings : Settings :=
  { back_threshold := 100, threshold := 150, min_diameter := 1,
    peaks_rel_threshold := 1 / 10, gaussian_kernel_size := 1,
    clahe_clip_limit := 2, clahe_tile_size := 8,
    morphology_kernel_size := 1 }

/-- A 3 × 3 image with a single bright pixel. -/
def witImage : ColorImage := mkGrayColor [[0, 0, 0], [0, 200, 0], [0, 0, 0]]

/-- The all-black (all-zero) color image of the given size. -/
def blackImage (h w : ℕ) : ColorImage :=
  List.replicate h (List.replicate w (0, 0, 0))

/-- The all-zero grayscale image of the given size. -/
def zeroGray (h w : ℕ) : Gray :=
  List.replicate h (List.replicate w 0)

/-- The all-zero distance map of the given size. -/
def zeroDistMap (h w : ℕ) : QGrid :=
  List.replicate h (List.replicate w 0)

/-- An in-range configuration with `back_threshold = 255` (the declared
range of `back_threshold` is 0 to 255 inclusive). -/
def s255 : Settings :=
  { back_threshold := 255, threshold := 150, min_diameter := 30,
    peaks_rel_threshold := 1 / 10, gaussian_kernel_size := 5,
    clahe_clip_limit := 2, clahe_tile_size := 8,
    morphology_kernel_size := 3 }

/-- A configuration with `threshold = 100`. -/
def s8a : Settings :=
  { back_threshold := 50, threshold := 100, min_diameter := 30,
    peaks_rel_threshold := 1 / 10, gaussian_kernel_size := 5,
    clahe_clip_limit := 2, clahe_tile_size := 8,
    morphology_kernel_size := 3 }

/-- The same configuration as `s8a` except `threshold = 150`. -/
def s8b : Settings :=
  { s8a with threshold := 150 }

/-- The configuration `mkSettings` builds from an even gaussian kernel
size 4 and an odd morphology kernel size 3. -/
def s9 : Settings :=
  { back_threshold := 100, threshold := 150, min_diameter := 30,
    peaks_rel_threshold := 1 / 10, gaussian_kernel_size := 5,
    clahe_clip_limit := 2, clahe_tile_size := 8,
    morphology_kernel_size := 3 }

/-! ### Grid lemmas -/

theorem getD_gridOf (h w : ℕ) (f : ℕ → ℕ → α) (d : α) (i j : ℕ) :
    (((gridOf h w f)[i]?.getD [])[j]?).getD d =
      if i < h ∧ j < w then f i j else d := by
  unfold gridOf
  by_cases hi : i < h
  · rw [List.getElem?_map, List.getElem?_range hi]
    by_cases hj : j < w
    · simp [List.getElem?_map, List.getElem?_range hj, hi, hj]
    · rw [if_neg (by tauto)]
      simp only [Option.map_some', Option.getD_some, List.getElem?_map]
      rw [List.getElem?_eq_none (by simpa using Nat.le_of_not_lt hj)]
      rfl
  · rw [if_neg (by tauto), List.getElem?_map]
    have hnone : (List.range h)[i]? = none :=
      List.getElem?_eq_none (by simpa using Nat.le_of_not_lt hi)
    rw [hnone]
    rfl

theorem gpx_gridOf (h w : ℕ) (f : ℕ → ℕ → ℕ) (i j : ℕ) :
    gpx (gridOf h w f) i j = if i < h ∧ j < w then f i j else 0 :=
  getD_gridOf h w f 0 i j

theorem qget_gridOf (h w : ℕ) (f : ℕ → ℕ → ℚ) (i j : ℕ) :
    qget (gridOf h w f) i j = if i < h ∧ j < w then f i j else 0 :=
  getD_gridOf h w f 0 i j

theorem length_gridOf (h w : ℕ) (f : ℕ → ℕ → α) :
    (gridOf h w f : List (List α)).length = h := by
  simp [gridOf]

theorem map_length_gridOf (h w : ℕ) (f : ℕ → ℕ → α) :
    (gridOf h w f : List (List α)).map List.length =
      List.replicate h w := by
  simp only [gridOf, List.map_map]
  have : (List.length ∘ fun i => (List.range w).map fun j => f i j) =
      fun _ : ℕ => w := by
    funext i; simp
  rw [this, List.map_const', List.length_range]


/-! ### Helper lemmas: circle extraction -/

theorem pyInt_nonneg {q : ℚ} (h : 0 ≤ q) : 0 ≤ pyInt q := by
  unfold pyInt
  rw [if_pos h]
  exact Int.le_floor.mpr (by exact_mod_cast h)

theorem pyInt_mono {a b : ℚ} (h : a ≤ b) : pyInt a ≤ pyInt b := by
  unfold pyInt
  by_cases ha : 0 ≤ a
  · rw [if_pos ha, if_pos (le_trans ha h)]
    exact Int.floor_mono h
  · rw [if_neg ha]
    by_cases hb : 0 ≤ b
    · rw [if_pos hb]
      have h1 : 0 ≤ ⌊-a⌋ := by
        apply Int.le_floor.mpr
        push_cast
        linarith [lt_of_not_le ha]
      have h2 : (0 : ℤ) ≤ ⌊b⌋ := Int.le_floor.mpr (by exact_mod_cast hb)
      omega
    · rw [if_neg hb]
      have h3 : ⌊-b⌋ ≤ ⌊-a⌋ := Int.floor_mono (by linarith)
      omega

theorem extractLoop_eq_filterMap (coeff : ℚ) (mind : ℤ)
    (rawMap eqMap : QGrid) (peaks : List (ℕ × ℕ)) :
    extractLoop coeff mind rawMap eqMap peaks =
      peaks.filterMap fun p =>
        if Int.fdiv mind 2 ≤ pyInt (qget rawMap p.1 p.2 * coeff) then
          some (p.2, p.1, pyInt (qget rawMap p.1 p.2 * coeff),
            pyInt (qget eqMap p.1 p.2 * coeff))
        else none := by
  induction peaks with
  | nil => rfl
  | cons p rest ih =>
    obtain ⟨y, x⟩ := p
    by_cases h : Int.fdiv mind 2 ≤ pyInt (qget rawMap y x * coeff)
    · simp [extractLoop, List.filterMap_cons, h, ih]
    · simp [extractLoop, List.filterMap_cons, h, ih]

theorem chamferW_nonneg (p q : ℕ × ℕ) : 0 ≤ chamferW p q := by
  unfold chamferW
  dsimp only
  by_cases h : ((p.1 : ℤ) - q.1).natAbs ≤ ((p.2 : ℤ) - q.2).natAbs
  · rw [if_pos h]
    have h2 : 0 ≤ (((p.2 : ℤ) - q.2).natAbs : ℚ) -
        (((p.1 : ℤ) - q.1).natAbs : ℚ) := by
      rw [sub_nonneg]
      exact_mod_cast h
    have h3 : (0 : ℚ) ≤ (((p.1 : ℤ) - q.1).natAbs : ℚ) := Nat.cast_nonneg _
    have c1 : (0 : ℚ) ≤ 955 / 1000 := by norm_num
    have c2 : (0 : ℚ) ≤ 13693 / 10000 := by norm_num
    nlinarith
  · rw [if_neg h]
    have h2 : 0 ≤ (((p.1 : ℤ) - q.1).natAbs : ℚ) -
        (((p.2 : ℤ) - q.2).natAbs : ℚ) := by
      rw [sub_nonneg]
      exact_mod_cast le_of_not_le h
    have h3 : (0 : ℚ) ≤ (((p.2 : ℤ) - q.2).natAbs : ℚ) := Nat.cast_nonneg _
    have c1 : (0 : ℚ) ≤ 955 / 1000 := by norm_num
    have c2 : (0 : ℚ) ≤ 13693 / 10000 := by norm_num
    nlinarith

theorem chamferDT_nonneg (g : Gray) (i j : ℕ) :
    0 ≤ qget (chamferDT g) i j := by
  simp only [chamferDT]
  rw [qget_gridOf]
  split
  · split
    · exact le_refl 0
    · rcases hm : (((coordsOf g).filter fun p => gpx g p.1 p.2 = 0).map
          fun q => chamferW (i, j) q).min? with _ | v
      · simp [hm]
      · rw [hm]
        simp only [Option.getD_some]
        have hv := List.min?_mem (fun a b : ℚ => min_choice a b) hm
        obtain ⟨q, _, rfl⟩ := List.mem_map.mp hv
        exact chamferW_nonneg _ _
  · exact le_refl 0

theorem computeDistanceTransform_nonneg (s : Settings) (g : Gray) (i j : ℕ) :
    0 ≤ qget (computeDistanceTransform s g) i j := by
  unfold computeDistanceTransform
  exact chamferDT_nonneg _ i j

theorem compCoeff_one_le (s : Settings) (hb : s.back_threshold < 255)
    (ht : s.back_threshold ≤ s.threshold) : 1 ≤ compCoeff s := by
  unfold compCoeff
  have hd : (0 : ℚ) < 255 - (s.back_threshold : ℚ) := by
    have : (s.back_threshold : ℚ) < 255 := by exact_mod_cast hb
    linarith
  have hn : (0 : ℚ) ≤ (s.threshold : ℚ) - (s.back_threshold : ℚ) := by
    have : (s.back_threshold : ℚ) ≤ (s.threshold : ℚ) := by exact_mod_cast ht
    linarith
  have := div_nonneg hn (le_of_lt hd)
  linarith

/-! ### Claim theorems: circle extraction -/

/-- C2 (amended): `_extract_circles` computes the compensation coefficient
`compCoeff` once per run — the same value scales both radii of every peak —
and, provided `back_threshold ≠ 255`, for every peak `(y, x)` it emits, in
the peaks' order, the circle `(x, y, radius1, radius2)` with
`radius1 = int(raw_map[y,x] * coeff)` and
`radius2 = int(equalized_map[y,x] * coeff)` (Python `int`, i.e. truncation
toward zero — not floor, which differs on negative products), keeping
exactly the circles with `radius1 ≥ min_diameter // 2`. -/
theorem extractCircles_coeff_once_trunc_order (s : Settings)
    (peaks : List (ℕ × ℕ)) (rawMap eqMap : QGrid)
    (hb : s.back_threshold ≠ 255) :
    extractCircles s peaks rawMap eqMap =
      Except.ok (peaks.filterMap fun p =>
        if Int.fdiv s.min_diameter 2 ≤
            pyInt (qget rawMap p.1 p.2 * compCoeff s) then
          some (p.2, p.1, pyInt (qget rawMap p.1 p.2 * compCoeff s),
            pyInt (qget eqMap p.1 p.2 * compCoeff s))
        else none) := by
  unfold extractCircles
  rw [if_neg (by omega), extractLoop_eq_filterMap]

/-- C2 counterexample: the claim's `floor` semantics is wrong for the code.
At the in-range configuration `cexSettings` (coefficient −153) with one
peak whose raw distance is 0 and equalized distance is 1/2, the code emits
the circle `(0, 0, 0, -76)`: `radius2 = int(1/2 * -153) = -76`, whereas
`floor(1/2 * -153) = -77`. -/
theorem extractCircles_floor_cex :
    extractCircles cexSettings [(0, 0)] [[0]] [[1 / 2]] =
      Except.ok [(0, 0, 0, -76)] ∧
    (-76 : ℤ) ≠ ⌊(1 / 2 : ℚ) * compCoeff cexSettings⌋ := by
  constructor
  · rfl
  · decide

/-- C2 witness: the amended theorem applied to a concrete configuration,
peak list and pair of distance maps. -/
theorem extractCircles_coeff_once_trunc_order_witness :
    extractCircles witSettings [(0, 1)] [[0, 2]] [[0, 3]] =
      Except.ok ([(0, 1)].filterMap fun p =>
        if Int.fdiv witSettings.min_diameter 2 ≤
            pyInt (qget [[0, 2]] p.1 p.2 * compCoeff witSettings) then
          some (p.2, p.1, pyInt (qget [[0, 2]] p.1 p.2 * compCoeff witSettings),
            pyInt (qget [[0, 3]] p.1 p.2 * compCoeff witSettings))
        else none) :=
  extractCircles_coeff_once_trunc_order witSettings [(0, 1)] [[0, 2]] [[0, 3]]
    (by decide)

/-- C8: with `back_threshold` fixed and below 255, the compensation
coefficient is strictly increasing in `threshold`, and therefore the radius
`int(value * coeff)` computed for any peak with a (non-negative) distance
value does not decrease when `threshold` increases. -/
theorem compCoeff_strictMono_radii (s1 s2 : Settings)
    (hb : s1.back_threshold = s2.back_threshold)
    (hlt : s1.back_threshold < 255) (ht : s1.threshold < s2.threshold) :
    compCoeff s1 < compCoeff s2 ∧
      ∀ v : ℚ, 0 ≤ v → pyInt (v * compCoeff s1) ≤ pyInt (v * compCoeff s2) := by
  have hcoeff : compCoeff s1 < compCoeff s2 := by
    unfold compCoeff
    rw [← hb]
    have hd : (0 : ℚ) < 255 - (s1.back_threshold : ℚ) := by
      have : (s1.back_threshold : ℚ) < 255 := by exact_mod_cast hlt
      linarith
    have hnum : (s1.threshold : ℚ) - (s1.back_threshold : ℚ) <
        (s2.threshold : ℚ) - (s1.back_threshold : ℚ) := by
      have : (s1.threshold : ℚ) < (s2.threshold : ℚ) := by exact_mod_cast ht
      linarith
    have := (div_lt_div_iff_of_pos_right hd).mpr hnum
    linarith
  refine ⟨hcoeff, fun v hv => ?_⟩
  exact pyInt_mono (mul_le_mul_of_nonneg_left (le_of_lt hcoeff) hv)

/-- C8 witness: the theorem applied to the concrete configurations `s8a`
(threshold 100) and `s8b` (threshold 150, same back threshold 50) and the
distance value 2. -/
theorem compCoeff_strictMono_radii_witness :
    s8a.back_threshold = s8b.back_threshold ∧ s8a.back_threshold < 255 ∧
    s8a.threshold < s8b.threshold ∧ compCoeff s8a < compCoeff s8b ∧
    pyInt (2 * compCoeff s8a) ≤ pyInt (2 * compCoeff s8b) :=
  ⟨rfl, by decide, by decide,
    (compCoeff_strictMono_radii s8a s8b rfl (by decide) (by decide)).1,
    (compCoeff_strictMono_radii s8a s8b rfl (by decide) (by decide)).2 2
      (by norm_num)⟩

/-- C9: configuration construction auto-adjusts even kernel sizes to odd:
whenever `mkSettings` succeeds, an even configured `gaussian_kernel_size`
or `morphology_kernel_size` `v` is stored as `v + 1` and an odd one is
kept unchanged. -/
theorem mkSettings_kernel_odd (back thr mind : ℤ) (rel : ℚ) (gk : ℤ)
    (clip : ℚ) (tile morph : ℤ) (s : Settings)
    (h : mkSettings back thr mind rel gk clip tile morph = some s) :
    ((gk % 2 = 0 → s.gaussian_kernel_size = gk + 1) ∧
      (gk % 2 ≠ 0 → s.gaussian_kernel_size = gk)) ∧
    ((morph % 2 = 0 → s.morphology_kernel_size = morph + 1) ∧
      (morph % 2 ≠ 0 → s.morphology_kernel_size = morph)) := by
  unfold mkSettings at h
  split at h
  · injection h with h
    subst h
    unfold validateOddKernelSize
    refine ⟨⟨fun hp => ?_, fun hp => ?_⟩, ⟨fun hp => ?_, fun hp => ?_⟩⟩ <;>
      simp [hp]
  · cases h

/-- C9 witness: constructing a configuration with the even gaussian kernel
size 4 and the odd morphology kernel size 3 stores 5 and 3 respectively. -/
theorem mkSettings_kernel_odd_witness :
    mkSettings 100 150 30 (1 / 10) 4 2 8 3 = some s9 ∧
    (4 : ℤ) % 2 = 0 ∧ (3 : ℤ) % 2 ≠ 0 ∧
    s9.gaussian_kernel_size = 4 + 1 ∧ s9.morphology_kernel_size = 3 :=
  ⟨by decide, by decide, by decide,
    (mkSettings_kernel_odd 100 150 30 (1 / 10) 4 2 8 3 s9 (by decide)).1.1
      (by decide),
    (mkSettings_kernel_odd 100 150 30 (1 / 10) 4 2 8 3 s9 (by decide)).2.2
      (by decide)⟩

/-- C10: with `back_threshold = 255` (a value configuration validation
accepts), `_extract_circles` hits the division by zero in the coefficient
computation before examining any peak — the result is the same
`ZeroDivisionError` for every peak list, the empty one included — and
`segment` therefore fails on every input image. -/
theorem extractCircles_back255_zero_division (s : Settings)
    (peaks : List (ℕ × ℕ)) (rawMap eqMap : QGrid) (image : ColorImage)
    (hb : s.back_threshold = 255) :
    extractCircles s peaks rawMap eqMap =
      Except.error "ZeroDivisionError" ∧
    segment s image = Except.error "ZeroDivisionError" := by
  have h0 : (255 : ℤ) - s.back_threshold = 0 := by omega
  constructor
  · unfold extractCircles
    rw [if_pos h0]
  · unfold segment extractCircles
    rw [if_pos h0]

/-- C10 witness: the theorem applied at the valid configuration `s255`
(whose `back_threshold` is 255), the empty peak list and a concrete 2 × 2
black image. -/
theorem extractCircles_back255_zero_division_witness :
    s255.Valid ∧ s255.back_threshold = 255 ∧
    (extractCircles s255 [] [] [] = Except.error "ZeroDivisionError" ∧
      segment s255 (blackImage 2 2) = Except.error "ZeroDivisionError") :=
  ⟨by decide, by decide,
    extractCircles_back255_zero_division s255 [] [] [] (blackImage 2 2) rfl⟩

/-! ### Helper lemmas: peak finding -/

theorem pickBest_mem (g : QGrid) :
    ∀ (cands : List (ℕ × ℕ)) (b : ℕ × ℕ),
      pickBest g cands = some b → b ∈ cands := by
  intro cands
  induction cands with
  | nil => intro b h; cases h
  | cons p rest ih =>
    intro b h
    cases hr : pickBest g rest with
    | none =>
      simp only [pickBest, hr] at h
      injection h with h
      exact h ▸ List.mem_cons_self p rest
    | some c =>
      simp only [pickBest, hr] at h
      split at h
      · injection h with h
        exact h ▸ List.mem_cons_of_mem p (ih c hr)
      · injection h with h
        exact h ▸ List.mem_cons_self p rest

theorem nmsLoop_subset (g : QGrid) (d : ℤ) :
    ∀ (fuel : ℕ) (cands : List (ℕ × ℕ)),
      ∀ p ∈ nmsLoop g d fuel cands, p ∈ cands := by
  intro fuel
  induction fuel with
  | zero => intro cands p hp; cases hp
  | succ n ih =>
    intro cands p hp
    rw [nmsLoop] at hp
    cases hb : pickBest g cands with
    | none => rw [hb] at hp; cases hp
    | some best =>
      rw [hb] at hp
      rcases List.mem_cons.mp hp with rfl | hp'
      · exact pickBest_mem g cands p hb
      · exact List.mem_of_mem_filter (ih _ p hp')

theorem nmsLoop_pairwise (g : QGrid) (d : ℤ) :
    ∀ (fuel : ℕ) (cands : List (ℕ × ℕ)),
      (nmsLoop g d fuel cands).Pairwise fun p q => d ^ 2 ≤ sqDist p q := by
  intro fuel
  induction fuel with
  | zero => intro cands; exact List.Pairwise.nil
  | succ n ih =>
    intro cands
    rw [nmsLoop]
    cases hb : pickBest g cands with
    | none => exact List.Pairwise.nil
    | some best =>
      refine List.Pairwise.cons ?_ (ih _)
      intro q hq
      have hq' := nmsLoop_subset g d n _ q hq
      have hmem := List.mem_filter.mp hq'
      exact (of_decide_eq_true hmem.2).2

theorem candidatePeaks_val (s : Settings) (g : QGrid) (p : ℕ × ℕ)
    (hp : p ∈ candidatePeaks s g) :
    s.peaks_rel_threshold * maxVal g < qget g p.1 p.2 := by
  unfold candidatePeaks at hp
  exact of_decide_eq_true (List.mem_filter.mp hp).2

/-! ### Helper lemmas: binary values and dimensions -/

theorem windowVals_mem (m : ℤ) (g : Gray) (i j : ℕ) (v : ℕ)
    (hv : v ∈ windowVals m g i j) : ∃ y x, v = gpx g y x := by
  unfold windowVals at hv
  rw [List.mem_flatMap] at hv
  obtain ⟨dy, _, hv⟩ := hv
  rw [List.mem_filterMap] at hv
  obtain ⟨dx, _, hv⟩ := hv
  dsimp only at hv
  split at hv
  · injection hv with hv
    exact ⟨_, _, hv.symm⟩
  · cases hv

theorem foldr_max_mem_or_zero (l : List ℕ) :
    l.foldr max 0 = 0 ∨ l.foldr max 0 ∈ l := by
  induction l with
  | nil => left; rfl
  | cons a t ih =>
    rw [List.foldr_cons]
    rcases max_choice a (t.foldr max 0) with h | h
    · right; rw [h]; exact List.mem_cons_self a t
    · rw [h]
      rcases ih with h0 | hmem
      · left; exact h0
      · right; exact List.mem_cons_of_mem a hmem

theorem thresholdBinary_binary (thr : ℤ) (g : Gray) :
    ∀ i j, gpx (thresholdBinary thr g) i j = 0 ∨
      gpx (thresholdBinary thr g) i j = 255 := by
  intro i j
  unfold thresholdBinary
  rw [gpx_gridOf]
  split
  · split
    · right; rfl
    · left; rfl
  · left; rfl

theorem dilate_binary (m : ℤ) (g : Gray)
    (hg : ∀ i j, gpx g i j = 0 ∨ gpx g i j = 255) :
    ∀ i j, gpx (dilate m g) i j = 0 ∨ gpx (dilate m g) i j = 255 := by
  intro i j
  unfold dilate
  rw [gpx_gridOf]
  split
  · rcases foldr_max_mem_or_zero (windowVals m g i j) with h | h
    · left; exact h
    · rcases windowVals_mem m g i j _ h with ⟨y, x, hvx⟩
      rw [hvx]
      exact hg y x
  · left; rfl

theorem erode_binary (m : ℤ) (g : Gray)
    (hg : ∀ i j, gpx g i j = 0 ∨ gpx g i j = 255) :
    ∀ i j, gpx (erode m g) i j = 0 ∨ gpx (erode m g) i j = 255 := by
  intro i j
  unfold erode
  rw [gpx_gridOf]
  split
  · rcases hm : (windowVals m g i j).min? with _ | v
    · left; rfl
    · have hv := List.min?_mem (fun a b : ℕ => min_choice a b) hm
      rcases windowVals_mem m g i j _ hv with ⟨y, x, hvx⟩
      simp only [Option.getD_some]
      rw [hvx]
      exact hg y x
  · left; rfl

theorem iterate_pres (P : Gray → Prop) (f : Gray → Gray)
    (hf : ∀ g, P g → P (f g)) :
    ∀ (n : ℕ) (g : Gray), P g → P (f^[n] g) := by
  intro n
  induction n with
  | zero => intro g hg; simpa using hg
  | succ k ih =>
    intro g hg
    rw [Function.iterate_succ_apply]
    exact ih _ (hf g hg)

theorem gwidth_gridOf_self (g : List (List α)) (f : ℕ → ℕ → β) :
    gwidth (gridOf g.length (gwidth g) f) = gwidth g := by
  cases g with
  | nil => rfl
  | cons r t =>
    simp [gridOf, gwidth, List.range_succ_eq_map]

theorem map_length_dilate (m : ℤ) (g : Gray) :
    (dilate m g).map List.length = List.replicate g.length (gwidth g) := by
  unfold dilate
  exact map_length_gridOf _ _ _

theorem dims_thresholdBinary (thr : ℤ) (g : Gray) :
    (thresholdBinary thr g).length = g.length ∧
      gwidth (thresholdBinary thr g) = gwidth g :=
  ⟨length_gridOf _ _ _, gwidth_gridOf_self g _⟩

theorem dims_dilate (m : ℤ) (g : Gray) :
    (dilate m g).length = g.length ∧ gwidth (dilate m g) = gwidth g :=
  ⟨length_gridOf _ _ _, gwidth_gridOf_self g _⟩

theorem dims_erode (m : ℤ) (g : Gray) :
    (erode m g).length = g.length ∧ gwidth (erode m g) = gwidth g :=
  ⟨length_gridOf _ _ _, gwidth_gridOf_self g _⟩

theorem dims_iterate (f : Gray → Gray)
    (hf : ∀ g : Gray, (f g).length = g.length ∧ gwidth (f g) = gwidth g)
    (n : ℕ) (g : Gray) :
    (f^[n] g).length = g.length ∧ gwidth (f^[n] g) = gwidth g := by
  induction n generalizing g with
  | zero => simp
  | succ k ih =>
    rw [Function.iterate_succ_apply]
    rcases ih (f g) with ⟨h1, h2⟩
    rcases hf g with ⟨h3, h4⟩
    exact ⟨h1.trans h3, h2.trans h4⟩

theorem dims_removeBackground (s : Settings) (g : Gray) :
    (removeBackground s g).length = g.length ∧
      gwidth (removeBackground s g) = gwidth g := by
  simp only [removeBackground]
  have hth := dims_thresholdBinary s.back_threshold g
  have he := dims_iterate (erode s.morphology_kernel_size)
    (fun x => dims_erode _ x) (max 1 (s.min_diameter.fdiv 3)).toNat
    (thresholdBinary s.back_threshold g)
  have hd := dims_iterate (dilate s.morphology_kernel_size)
    (fun x => dims_dilate _ x) (max 1 (s.min_diameter.fdiv 3)).toNat
    ((erode s.morphology_kernel_size)^[(max 1 (s.min_diameter.fdiv 3)).toNat]
      (thresholdBinary s.back_threshold g))
  have hd5 := dims_iterate (dilate s.morphology_kernel_size)
    (fun x => dims_dilate _ x) 5
    ((dilate s.morphology_kernel_size)^[(max 1 (s.min_diameter.fdiv 3)).toNat]
      ((erode s.morphology_kernel_size)^[(max 1 (s.min_diameter.fdiv 3)).toNat]
        (thresholdBinary s.back_threshold g)))
  exact ⟨by rw [hd5.1, hd.1, he.1, hth.1], by rw [hd5.2, hd.2, he.2, hth.2]⟩

/-! ### Claim theorems: peak finder, background remover, distance mapper -/

/-- C3: every pair of distinct peaks returned by `_find_local_maxima` is at
squared Euclidean distance at least `min_diameter ^ 2` (no two peaks are
closer than `min_diameter`), and every returned peak's distance-map value
is at least `peaks_rel_threshold` times the maximum of the map. -/
theorem findLocalMaxima_separation_and_threshold (s : Settings) (g : QGrid) :
    (findLocalMaxima s g).Pairwise
      (fun p q => s.min_diameter ^ 2 ≤ sqDist p q) ∧
    ∀ p ∈ findLocalMaxima s g,
      s.peaks_rel_threshold * maxVal g ≤ qget g p.1 p.2 := by
  constructor
  · unfold findLocalMaxima
    exact nmsLoop_pairwise g s.min_diameter _ _
  · intro p hp
    unfold findLocalMaxima at hp
    exact le_of_lt (candidatePeaks_val s g p
      (nmsLoop_subset g s.min_diameter _ _ p hp))

/-- C3 witness: on the concrete map `[[0, 5]]` the pixel `(0, 1)` is
returned as a peak and its value 5 is at least `1/10` of the maximum. -/
theorem findLocalMaxima_separation_and_threshold_witness :
    (0, 1) ∈ findLocalMaxima witSettings [[0, 5]] ∧
    witSettings.peaks_rel_threshold * maxVal [[0, 5]] ≤ qget [[0, 5]] 0 1 :=
  ⟨by decide,
    (findLocalMaxima_separation_and_threshold witSettings [[0, 5]]).2 (0, 1)
      (by decide)⟩

/-- C4: for every input image and configuration, the mask produced by
`_remove_background` has the input's dimensions (same number of rows, every
row of the input's width) and holds only the values 0 and 255. -/
theorem removeBackground_binary_mask (s : Settings) (image : Gray) :
    (removeBackground s image).map List.length =
      List.replicate image.length (gwidth image) ∧
    ∀ i j, gpx (removeBackground s image) i j = 0 ∨
      gpx (removeBackground s image) i j = 255 := by
  constructor
  · simp only [removeBackground]
    rw [show (5 : ℕ) = 4 + 1 from rfl, Function.iterate_succ_apply',
      map_length_dilate]
    have h1 := dims_thresholdBinary s.back_threshold image
    have h2 := dims_iterate (erode s.morphology_kernel_size)
      (fun x => dims_erode _ x) (max 1 (Int.fdiv s.min_diameter 3)).toNat
      (thresholdBinary s.back_threshold image)
    have h3 := dims_iterate (dilate s.morphology_kernel_size)
      (fun x => dims_dilate _ x) (max 1 (Int.fdiv s.min_diameter 3)).toNat
      ((erode s.morphology_kernel_size)^[(max 1 (Int.fdiv s.min_diameter 3)).toNat]
        (thresholdBinary s.back_threshold image))
    have h4 := dims_iterate (dilate s.morphology_kernel_size)
      (fun x => dims_dilate _ x) 4
      ((dilate s.morphology_kernel_size)^[(max 1 (Int.fdiv s.min_diameter 3)).toNat]
        ((erode s.morphology_kernel_size)^[(max 1 (Int.fdiv s.min_diameter 3)).toNat]
          (thresholdBinary s.back_threshold image)))
    rw [h4.1, h3.1, h2.1, h1.1, h4.2, h3.2, h2.2, h1.2]
  · simp only [removeBackground]
    refine iterate_pres
      (fun g => ∀ i j, gpx g i j = 0 ∨ gpx g i j = 255)
      (dilate s.morphology_kernel_size) (fun g hg => dilate_binary _ g hg)
      5 _ ?_
    refine iterate_pres
      (fun g => ∀ i j, gpx g i j = 0 ∨ gpx g i j = 255)
      (dilate s.morphology_kernel_size) (fun g hg => dilate_binary _ g hg)
      _ _ ?_
    refine iterate_pres
      (fun g => ∀ i j, gpx g i j = 0 ∨ gpx g i j = 255)
      (erode s.morphology_kernel_size) (fun g hg => erode_binary _ g hg)
      _ _ ?_
    exact thresholdBinary_binary s.back_threshold image

theorem chamferDT_zero_of_bg (g : Gray) (i j : ℕ) (h : gpx g i j = 0) :
    qget (chamferDT g) i j = 0 := by
  simp only [chamferDT]
  rw [qget_gridOf]
  simp [h]

/-- C5: `_compute_distance_transform` binarizes its input at `threshold`
exactly when the input has more than two distinct intensity levels
(otherwise the input is used as the binary image unchanged), and every
pixel that is zero in that binarized input maps to 0 in the resulting
distance map. -/
theorem computeDistanceTransform_branch_and_background (s : Settings)
    (image : Gray) :
    (2 < numDistinct image →
      computeDistanceTransform s image =
        chamferDT (thresholdBinary s.threshold image)) ∧
    (¬ 2 < numDistinct image →
      computeDistanceTransform s image = chamferDT image) ∧
    ∀ i j,
      gpx (if 2 < numDistinct image then thresholdBinary s.threshold image
        else image) i j = 0 →
      qget (computeDistanceTransform s image) i j = 0 := by
  refine ⟨fun h => ?_, fun h => ?_, fun i j h0 => ?_⟩
  · unfold computeDistanceTransform
    rw [if_pos h]
  · unfold computeDistanceTransform
    rw [if_neg h]
  · unfold computeDistanceTransform
    exact chamferDT_zero_of_bg _ i j h0

/-- C5 witness: the image `[[0, 255], [0, 255]]` has exactly two distinct
levels, so it is not re-binarized, and its background pixel `(0, 0)` maps
to 0 in the distance map. -/
theorem computeDistanceTransform_branch_and_background_witness :
    (¬ 2 < numDistinct [[0, 255], [0, 255]] ∧
      computeDistanceTransform witSettings [[0, 255], [0, 255]] =
        chamferDT [[0, 255], [0, 255]]) ∧
    (gpx (if 2 < numDistinct [[0, 255], [0, 255]] then
        thresholdBinary witSettings.threshold [[0, 255], [0, 255]]
      else [[0, 255], [0, 255]]) 0 0 = 0 ∧
      qget (computeDistanceTransform witSettings [[0, 255], [0, 255]]) 0 0
        = 0) :=
  ⟨⟨by decide,
    (computeDistanceTransform_branch_and_background witSettings
      [[0, 255], [0, 255]]).2.1 (by decide)⟩,
   ⟨by decide,
    (computeDistanceTransform_branch_and_background witSettings
      [[0, 255], [0, 255]]).2.2 0 0 (by decide)⟩⟩

/-- C7: `segment` is a pure function of the image and the configuration:
the pipeline involves no randomness, hidden state or environment reads, so
two runs on the identical image and configuration give the identical
circle list. -/
theorem segment_deterministic (s : Settings) (image : ColorImage) :
    segment s image = segment s image := rfl

/-! ### Claim theorems: radius invariants of `segment` -/

set_option maxRecDepth 100000
set_option maxHeartbeats 2000000

theorem extractCircles_bounds (s : Settings) (peaks : List (ℕ × ℕ))
    (rawMap eqMap : QGrid) (cs : List Circle)
    (heqm : ∀ i j, 0 ≤ qget eqMap i j)
    (hv : s.Valid) (hok : extractCircles s peaks rawMap eqMap = Except.ok cs) :
    ∀ c ∈ cs, Int.fdiv s.min_diameter 2 ≤ c.2.2.1 ∧ 0 ≤ c.2.2.1 ∧
      (s.back_threshold ≤ s.threshold → 0 ≤ c.2.2.2) := by
  intro c hc
  obtain ⟨hb0, hb255, ht0, ht255, hmind, hrest⟩ := hv
  unfold extractCircles at hok
  by_cases hb : (255 : ℤ) - s.back_threshold = 0
  · rw [if_pos hb] at hok
    cases hok
  · rw [if_neg hb] at hok
    injection hok with hok
    rw [← hok, extractLoop_eq_filterMap, List.mem_filterMap] at hc
    obtain ⟨p, hp, hsome⟩ := hc
    split at hsome
    next hr1 =>
      injection hsome with hsome
      rw [← hsome]
      refine ⟨hr1, ?_, ?_⟩
      · have h0 : (0 : ℤ) ≤ Int.fdiv s.min_diameter 2 :=
          Int.fdiv_nonneg (by omega) (by norm_num)
        exact le_trans h0 hr1
      · intro hbt
        apply pyInt_nonneg
        apply mul_nonneg
        · exact heqm p.1 p.2
        · have hlt : s.back_threshold < 255 := by omega
          linarith [compCoeff_one_le s hlt hbt]
    next => cases hsome

/-- C1 (amended): for every configuration with fields in their declared
ranges and every input image, every circle `(x, y, radius1, radius2)` in a
successfully returned list satisfies `radius1 ≥ min_diameter // 2` and
`radius1 ≥ 0`; the remaining bound `radius2 ≥ 0` holds under the additional
assumption `back_threshold ≤ threshold` (without it the compensation
coefficient can be negative and the pipeline can return a negative
`radius2`, see the counterexample). -/
theorem segment_radius_invariants (s : Settings) (image : ColorImage)
    (cs : List Circle) (hv : s.Valid) (hok : segment s image = Except.ok cs) :
    ∀ c ∈ cs, Int.fdiv s.min_diameter 2 ≤ c.2.2.1 ∧ 0 ≤ c.2.2.1 ∧
      (s.back_threshold ≤ s.threshold → 0 ≤ c.2.2.2) := by
  simp only [segment] at hok
  exact extractCircles_bounds s _ _ _ cs
    (fun i j => computeDistanceTransform_nonneg _ _ i j) hv hok

/-- C1 counterexample: the claim's unconditional `radius2 ≥ 0` is false.
`cexSettings` has every field in its declared range (but
`threshold = 100 < 254 = back_threshold`, so the compensation coefficient
is `-153`), and on the concrete image `cexImage` the pipeline returns
circles whose `radius2` is negative (`-146`). -/
theorem segment_radius_cex :
    cexSettings.Valid ∧
    ∃ c ∈ (segment cexSettings cexImage).toOption.getD [], c.2.2.2 < 0 := by
  refine ⟨by decide, ?_⟩
  decide

/-- C1 witness: the amended theorem applied to the valid configuration
`witSettings` (whose `back_threshold ≤ threshold`) and the image
`witImage`, on which the pipeline returns the single circle
`(1, 1, 1, 1)`. -/
theorem segment_radius_invariants_witness :
    witSettings.Valid ∧
    segment witSettings witImage = Except.ok [(1, 1, 1, 1)] ∧
    (Int.fdiv witSettings.min_diameter 2 ≤ (1 : ℤ) ∧ (0 : ℤ) ≤ (1 : ℤ) ∧
      (witSettings.back_threshold ≤ witSettings.threshold →
        (0 : ℤ) ≤ (1 : ℤ))) :=
  ⟨by decide, by rfl,
    segment_radius_invariants witSettings witImage [(1, 1, 1, 1)] (by decide)
      (by rfl) (1, 1, 1, 1) (by decide)⟩

/-! ### Helper lemmas: the pipeline on an all-black image -/

theorem getD_replicate_replicate (h w i j : ℕ) (a d : α) :
    ((((List.replicate h (List.replicate w a)))[i]?.getD [])[j]?).getD d =
      if i < h ∧ j < w then a else d := by
  rw [List.getElem?_replicate]
  by_cases hi : i < h
  · rw [if_pos hi]
    simp only [Option.getD_some]
    rw [List.getElem?_replicate]
    by_cases hj : j < w
    · simp [hi, hj]
    · simp [hi, hj]
  · simp [hi]

theorem gpx_zeroGray (h w i j : ℕ) : gpx (zeroGray h w) i j = 0 := by
  unfold gpx zeroGray
  rw [getD_replicate_replicate]
  split <;> rfl

theorem qget_zeroDistMap (h w i j : ℕ) : qget (zeroDistMap h w) i j = 0 := by
  unfold qget zeroDistMap
  rw [getD_replicate_replicate]
  split <;> rfl

theorem cpx_blackImage (h w i j : ℕ) : cpx (blackImage h w) i j = (0, 0, 0) := by
  unfold cpx blackImage
  rw [getD_replicate_replicate]
  split <;> rfl

theorem gridOf_const (h w : ℕ) (f : ℕ → ℕ → α) (a : α)
    (hf : ∀ i j, i < h → j < w → f i j = a) :
    gridOf h w f = List.replicate h (List.replicate w a) := by
  unfold gridOf
  have hrow : ∀ i ∈ List.range h,
      ((List.range w).map fun j => f i j) = List.replicate w a := by
    intro i hi
    have hcell : ∀ j ∈ List.range w, f i j = (fun _ : ℕ => a) j := fun j hj =>
      hf i j (List.mem_range.mp hi) (List.mem_range.mp hj)
    rw [List.map_congr_left hcell, List.map_const', List.length_range]
  rw [List.map_congr_left hrow, List.map_const', List.length_range]

theorem length_zeroGray (h w : ℕ) : (zeroGray h w).length = h := by
  simp [zeroGray]

theorem gwidth_zeroGray (h w : ℕ) (hh : h ≠ 0) : gwidth (zeroGray h w) = w := by
  cases h with
  | zero => exact absurd rfl hh
  | succ n => simp [zeroGray, gwidth, List.replicate_succ]

theorem zeroGray_elems (h w : ℕ) (v : ℕ) (hv : v ∈ (zeroGray h w).flatten) :
    v = 0 := by
  rw [List.mem_flatten] at hv
  obtain ⟨row, hrow, hv⟩ := hv
  have := List.eq_of_mem_replicate hrow
  subst this
  exact List.eq_of_mem_replicate hv

theorem foldr_nat_max_zero (l : List ℕ) (hl : ∀ v ∈ l, v = 0) :
    l.foldr max 0 = 0 := by
  induction l with
  | nil => rfl
  | cons a t ih =>
    rw [List.foldr_cons, hl a (List.mem_cons_self a t),
      ih fun v hv => hl v (List.mem_cons_of_mem a hv)]
    exact max_self 0

theorem thresholdBinary_zeroGray (thr : ℤ) (h w : ℕ) (hthr : 0 ≤ thr) :
    thresholdBinary thr (zeroGray h w) = zeroGray h w := by
  cases h with
  | zero => rfl
  | succ n =>
    unfold thresholdBinary
    rw [length_zeroGray, gwidth_zeroGray _ _ (Nat.succ_ne_zero n)]
    exact gridOf_const _ _ _ _ fun i j _ _ => by
      rw [gpx_zeroGray]
      rw [if_neg (by omega)]

theorem dilate_zeroGray (m : ℤ) (h w : ℕ) :
    dilate m (zeroGray h w) = zeroGray h w := by
  cases h with
  | zero => rfl
  | succ n =>
    unfold dilate
    rw [length_zeroGray, gwidth_zeroGray _ _ (Nat.succ_ne_zero n)]
    refine gridOf_const _ _ _ _ fun i j _ _ => ?_
    refine foldr_nat_max_zero _ fun v hv => ?_
    rcases windowVals_mem _ _ _ _ _ hv with ⟨y, x, rfl⟩
    exact gpx_zeroGray _ _ _ _

theorem erode_zeroGray (m : ℤ) (h w : ℕ) :
    erode m (zeroGray h w) = zeroGray h w := by
  cases h with
  | zero => rfl
  | succ n =>
    unfold erode
    rw [length_zeroGray, gwidth_zeroGray _ _ (Nat.succ_ne_zero n)]
    refine gridOf_const _ _ _ _ fun i j _ _ => ?_
    rcases hm : (windowVals m (zeroGray (n + 1) w) i j).min? with _ | v
    · rfl
    · have hv := List.min?_mem (fun a b : ℕ => min_choice a b) hm
      rcases windowVals_mem _ _ _ _ _ hv with ⟨y, x, rfl⟩
      simp only [Option.getD_some]
      exact gpx_zeroGray _ _ _ _

theorem removeBackground_zeroGray (s : Settings) (h w : ℕ)
    (hb : 0 ≤ s.back_threshold) :
    removeBackground s (zeroGray h w) = zeroGray h w := by
  simp only [removeBackground]
  rw [thresholdBinary_zeroGray _ _ _ hb,
    Function.iterate_fixed (erode_zeroGray _ h w) _,
    Function.iterate_fixed (dilate_zeroGray _ h w) _,
    Function.iterate_fixed (dilate_zeroGray _ h w) _]

theorem applyMask_zeroGray (h w : ℕ) :
    applyMask (zeroGray h w) (zeroGray h w) = zeroGray h w := by
  cases h with
  | zero => rfl
  | succ n =>
    unfold applyMask
    rw [length_zeroGray, gwidth_zeroGray _ _ (Nat.succ_ne_zero n)]
    refine gridOf_const _ _ _ _ fun i j _ _ => ?_
    rw [gpx_zeroGray]
    simp

theorem clahe_zeroGray (h w : ℕ) : clahe (zeroGray h w) = zeroGray h w := by
  cases h with
  | zero => rfl
  | succ n =>
    simp only [clahe]
    rw [length_zeroGray, gwidth_zeroGray _ _ (Nat.succ_ne_zero n)]
    refine gridOf_const _ _ _ _ fun i j _ _ => ?_
    rw [gpx_zeroGray]
    have hvmin : ((zeroGray (n + 1) w).flatten.min?).getD 0 = 0 := by
      rcases hm : (zeroGray (n + 1) w).flatten.min? with _ | v
      · rfl
      · simp only [Option.getD_some]
        exact zeroGray_elems _ _ _ (List.min?_mem (fun a b : ℕ => min_choice a b) hm)
    rw [hvmin]
    simp

theorem gaussianBlur_blackImage (k : ℤ) (h w : ℕ) :
    gaussianBlur k (blackImage h w) = blackImage h w := by
  simp only [gaussianBlur]
  split
  · rfl
  · cases h with
    | zero => rfl
    | succ n =>
      have hlen : (blackImage (n + 1) w).length = n + 1 := by simp [blackImage]
      have hwid : gwidth (blackImage (n + 1) w) = w := by
        simp [blackImage, gwidth, List.replicate_succ]
      rw [hlen, hwid]
      refine gridOf_const _ _ _ _ fun i j _ _ => ?_
      have hdiv : 4 ^ (k.toNat - 1) / 2 / 4 ^ (k.toNat - 1) = 0 :=
        Nat.div_eq_of_lt (Nat.div_lt_self
          (pow_pos (by norm_num : (0 : ℕ) < 4) _) (by norm_num))
      simp only [cpx_blackImage]
      simp [List.map_const', List.sum_replicate, hdiv]

theorem cvtGray_blackImage (h w : ℕ) :
    cvtGray (blackImage h w) = zeroGray h w := by
  cases h with
  | zero => rfl
  | succ n =>
    unfold cvtGray
    have hlen : (blackImage (n + 1) w).length = n + 1 := by simp [blackImage]
    have hwid : gwidth (blackImage (n + 1) w) = w := by
      simp [blackImage, gwidth, List.replicate_succ]
    rw [hlen, hwid]
    refine gridOf_const _ _ _ _ fun i j _ _ => ?_
    rw [cpx_blackImage]
    rfl

theorem numDistinct_zeroGray_le (h w : ℕ) : numDistinct (zeroGray h w) ≤ 2 := by
  unfold numDistinct
  rcases hd : (zeroGray h w).flatten.dedup with _ | ⟨a, _ | ⟨b, t⟩⟩
  · simp
  · simp
  · exfalso
    have hnd := (zeroGray h w).flatten.nodup_dedup
    rw [hd] at hnd
    have hab : a ≠ b := by
      have := List.pairwise_cons.mp hnd
      exact this.1 b (List.mem_cons_self b t)
    have ha : a ∈ (zeroGray h w).flatten.dedup := hd ▸ List.mem_cons_self _ _
    have hb : b ∈ (zeroGray h w).flatten.dedup :=
      hd ▸ List.mem_cons_of_mem _ (List.mem_cons_self _ _)
    rw [List.mem_dedup] at ha hb
    exact hab ((zeroGray_elems h w a ha).trans (zeroGray_elems h w b hb).symm)

theorem chamferDT_zeroGray (h w : ℕ) :
    chamferDT (zeroGray h w) = zeroDistMap h w := by
  cases h with
  | zero => rfl
  | succ n =>
    simp only [chamferDT]
    rw [length_zeroGray, gwidth_zeroGray _ _ (Nat.succ_ne_zero n)]
    refine gridOf_const _ _ _ _ fun i j _ _ => ?_
    rw [if_pos (gpx_zeroGray _ _ i j)]

theorem computeDistanceTransform_zeroGray (s : Settings) (h w : ℕ) :
    computeDistanceTransform s (zeroGray h w) = zeroDistMap h w := by
  unfold computeDistanceTransform
  have hnd : ¬ 2 < numDistinct (zeroGray h w) := by
    have := numDistinct_zeroGray_le h w
    omega
  rw [if_neg hnd]
  exact chamferDT_zeroGray h w

theorem zeroDistMap_elems (h w : ℕ) (v : ℚ)
    (hv : v ∈ (zeroDistMap h w).flatten) : v = 0 := by
  rw [List.mem_flatten] at hv
  obtain ⟨row, hrow, hv⟩ := hv
  have := List.eq_of_mem_replicate hrow
  subst this
  exact List.eq_of_mem_replicate hv

theorem foldr_rat_max_zero (l : List ℚ) (hl : ∀ v ∈ l, v = 0) :
    l.foldr max 0 = 0 := by
  induction l with
  | nil => rfl
  | cons a t ih =>
    rw [List.foldr_cons, hl a (List.mem_cons_self a t),
      ih fun v hv => hl v (List.mem_cons_of_mem a hv)]
    exact max_self 0

theorem maxVal_zeroDistMap (h w : ℕ) : maxVal (zeroDistMap h w) = 0 := by
  unfold maxVal
  exact foldr_rat_max_zero _ (zeroDistMap_elems h w)

theorem candidatePeaks_zeroDistMap (s : Settings) (h w : ℕ) :
    candidatePeaks s (zeroDistMap h w) = [] := by
  unfold candidatePeaks
  rw [List.filter_eq_nil_iff]
  intro p _
  rw [maxVal_zeroDistMap, qget_zeroDistMap, mul_zero]
  simp

theorem findLocalMaxima_zeroDistMap (s : Settings) (h w : ℕ) :
    findLocalMaxima s (zeroDistMap h w) = [] := by
  unfold findLocalMaxima
  rw [candidatePeaks_zeroDistMap]
  rfl

/-! ### Claim theorems: the all-black degenerate case -/

/-- C6 (amended): for every configuration with fields in their declared
ranges whose `back_threshold` is moreover strictly below 255, `segment` on
an all-black (all-zero) image of any size returns the empty circle list
without an error, and the Peak Finder on an all-zero distance map returns
the empty sequence.  (At `back_threshold = 255`, which the declared ranges
allow, `segment` instead raises `ZeroDivisionError` — see the
counterexample.) -/
theorem segment_black_empty (s : Settings) (h w : ℕ) (hv : s.Valid)
    (hb : s.back_threshold < 255) :
    segment s (blackImage h w) = Except.ok [] ∧
    findLocalMaxima s (zeroDistMap h w) = [] := by
  obtain ⟨hb0, hb255, ht0, ht255, hmind, hrest⟩ := hv
  refine ⟨?_, findLocalMaxima_zeroDistMap s h w⟩
  simp only [segment, preprocessImage]
  rw [gaussianBlur_blackImage, cvtGray_blackImage, clahe_zeroGray,
    removeBackground_zeroGray s h w hb0, applyMask_zeroGray,
    computeDistanceTransform_zeroGray s h w, clahe_zeroGray,
    computeDistanceTransform_zeroGray s h w,
    findLocalMaxima_zeroDistMap]
  unfold extractCircles
  rw [if_neg (by omega)]
  rfl

/-- C6 counterexample: the claim fails at `back_threshold = 255`, a value
inside the declared range 0 to 255 and accepted by validation: on a 2 × 2
all-black image, `segment` with `s255` raises `ZeroDivisionError` instead
of returning an empty list. -/
theorem segment_black_cex :
    s255.Valid ∧
    segment s255 (blackImage 2 2) = Except.error "ZeroDivisionError" :=
  ⟨by decide, by rfl⟩

/-- C6 witness: the amended theorem applied to the valid configuration
`witSettings` (back threshold 100 < 255) and a concrete 2 × 3 black image
and 2 × 3 zero distance map. -/
theorem segment_black_empty_witness :
    witSettings.Valid ∧ witSettings.back_threshold < 255 ∧
    (segment witSettings (blackImage 2 3) = Except.ok [] ∧
      findLocalMaxima witSettings (zeroDistMap 2 3) = []) :=
  ⟨by decide, by decide,
    segment_black_empty witSettings 2 3 (by decide) (by decide)⟩

end

end MushroomSeg
